import Mathlib

/-!
# Verification of Restate's Bifrost log-server store and read stream

A shallow embedding of the core of the `restate` repository's log subsystem:

* `crates/log-server/src/rocksdb_logstore/store.rs`:
  `load_loglet_state`, `enqueue_store` and `read_records` of `RocksDbLogStore`.
* `crates/bifrost/src/read_stream.rs`:
  `LogReadStream::poll_next` and `calculate_read_pointer`.
* The replicated loglet's quorum `find_tail` computation
  (`crates/bifrost/src/providers/replicated_loglet/loglet.rs` leaves it
  unimplemented; it is modelled from the specification).

RocksDB column families are modelled as association lists sorted by key;
a RocksDB forward iterator over a sorted list is the suffix obtained by
`dropWhile`, `seek` re-establishes such a suffix, and `next` is `tail`.
Machine integers (`u32` loglet offsets, `u64` LSNs, `usize` sizes) are
modelled as `Nat`; all arithmetic in the embedded code paths is far from
the wrap-around boundary and the source uses checked/saturating forms
(`saturating_sub`, `next`, `prev`) whose `Nat` counterparts agree.
-/

namespace Restate

/-- `LogletOffset` is a `u32` newtype. We model it as `Nat`. -/
abbrev LogletOffset := Nat

/-- `LogletOffset::INVALID = 0`. -/
def LogletOffset.INVALID : Nat := 0

/-- `LogletOffset::OLDEST = 1`. -/
def LogletOffset.OLDEST : Nat := 1

/-- `usize::MAX`, the default byte budget in `read_records` when
`total_limit_in_bytes` is `None`. -/
def USIZE_MAX : Nat := 2 ^ 64 - 1

/-- Observable outputs of `DataRecordDecoder` for one stored record
(`record_format.rs` is not part of the sources; only the decoder's three
observables are used by `read_records`): `size()` (the encoded size counted
against the byte budget), `matches_key_query(&msg.filter)` evaluated at the
request's filter, and the decoded payload `decode()`. -/
structure DataRecord where
  size : Nat
  matches_key_query : Bool
  payload : Nat
deriving DecidableEq, Repr

/-- `MaybeRecord` from `restate_types::net::log_server`: an entry of a
`Records` response. `TrimGap`/`FilteredGap` both carry a `Gap { to }`. -/
inductive MaybeRecord where
  | data (payload : Nat)
  | trimGap (to' : Nat)
  | filteredGap (to' : Nat)
deriving DecidableEq, Repr

/-- Is this entry a `Data` record? -/
def MaybeRecord.isData : MaybeRecord → Bool
  | .data _ => true
  | _ => false

/-- Is this entry a `TrimGap`? -/
def MaybeRecord.isTrimGap : MaybeRecord → Bool
  | .trimGap _ => true
  | _ => false

/-- Is this entry a `FilteredGap`? -/
def MaybeRecord.isFilteredGap : MaybeRecord → Bool
  | .filteredGap _ => true
  | _ => false

/-- The `GetRecords` request fields used by `read_records` (the loglet id
selects the per-loglet key range, which the embedding bakes into the data
list; the filter is baked into each record's `matches` bit). -/
structure GetRecords where
  from_offset : Nat
  to_offset : Nat
  total_limit_in_bytes : Option Nat
deriving DecidableEq, Repr

/-- `LogletState` as consumed and produced by the store:
`sequencer()`, `local_tail().offset()`, `is_sealed()`, `trim_point()`. -/
structure LogletState where
  sequencer : Option Nat
  local_tail : Nat
  sealed : Bool
  trim_point : Nat
deriving DecidableEq, Repr

/-- The three per-loglet metadata-CF entries read by `load_loglet_state`:
the `Sequencer` key, the `TrimPoint` key (absent ⇒ `LogletOffset::INVALID`)
and the `Seal` key (presence ⇒ sealed). -/
structure LogletMetadata where
  sequencer : Option Nat
  trim_point : Option Nat
  sealed : Bool
deriving DecidableEq, Repr

/-- Offsets of the data-CF records belonging to `loglet_id`: the data CF is
an association list of `(loglet_id, offset)` keys; the prefix-bounded
iterator of `load_loglet_state` only sees the entries of this loglet. -/
def logletOffsets (dataCF : List (Nat × Nat)) (loglet_id : Nat) : List Nat :=
  (dataCF.filter (fun e => e.1 == loglet_id)).map (·.2)

/-- Largest element of a list of offsets, `none` when empty. This is the
result of `iterator.seek_for_prev(max_legal_record)` over the loglet's
bounded key range in `load_loglet_state`. -/
def maxOffset : List Nat → Option Nat
  | [] => none
  | o :: rest =>
    match maxOffset rest with
    | none => some o
    | some m => some (max o m)

/-- `RocksDbLogStore::load_loglet_state` (store.rs:97-178): reads
sequencer/trim-point/seal metadata, computes `local_tail` from the last
existing record via the bounded reverse seek, and falls back to
`trim_point.next()` for a fully trimmed loglet. -/
def load_loglet_state (dataCF : List (Nat × Nat)) (meta : LogletMetadata)
    (loglet_id : Nat) : LogletState :=
  let is_sealed := meta.sealed
  let trim_point := meta.trim_point.getD LogletOffset.INVALID
  let sequencer := meta.sequencer
  let local_tail :=
    match maxOffset (logletOffsets dataCF loglet_id) with
    | some m => m + 1
    | none => LogletOffset.OLDEST
  let local_tail :=
    if local_tail = LogletOffset.OLDEST ∧ LogletOffset.INVALID < trim_point then
      trim_point + 1
    else
      local_tail
  { sequencer := sequencer, local_tail := local_tail, sealed := is_sealed,
    trim_point := trim_point }

/-- The `Store` message fields relevant to `enqueue_store`. -/
structure Store where
  loglet_id : Nat
  sequencer : Nat
  first_offset : Nat
  known_archived : Nat
  known_global_tail : Nat
  payloads : List Nat
deriving DecidableEq, Repr

/-- `RocksDbLogStoreError` variants reachable from the embedded paths. -/
inductive RocksDbLogStoreError where
  | invalidOffset (offset : Nat)
deriving DecidableEq, Repr

/-- `RocksDbLogStore::enqueue_store` (store.rs:180-192): rejects
`LogletOffset::INVALID` first offsets, otherwise hands the message to the
writer (`RocksDbLogWriterHandle::enqueue_put_records`, modelled as
appending to the writer's queue of pending `(Store, set_sequencer)` jobs). -/
def enqueue_store (writer_queue : List (Store × Bool)) (store_message : Store)
    (set_sequencer_in_metadata : Bool) :
    Except RocksDbLogStoreError (List (Store × Bool)) :=
  if store_message.first_offset = LogletOffset.INVALID then
    .error (.invalidOffset store_message.first_offset)
  else
    .ok (writer_queue ++ [(store_message, set_sequencer_in_metadata)])

/-! ## Helper lemmas about `maxOffset` -/

theorem maxOffset_eq_none {l : List Nat} : maxOffset l = none ↔ l = [] := by
  cases l with
  | nil => simp [maxOffset]
  | cons a rest =>
    simp only [maxOffset]
    cases maxOffset rest <;> simp

theorem maxOffset_le {l : List Nat} {m : Nat} (h : maxOffset l = some m) :
    ∀ o ∈ l, o ≤ m := by
  induction l generalizing m with
  | nil => simp [maxOffset] at h
  | cons a rest ih =>
    cases hrest : maxOffset rest with
    | none =>
      have hr : rest = [] := maxOffset_eq_none.mp hrest
      subst hr
      simp only [maxOffset, Option.some.injEq] at h
      intro o ho
      simp only [List.mem_singleton] at ho
      subst ho
      exact Nat.le_of_eq h
    | some m' =>
      simp only [maxOffset, hrest, Option.some.injEq] at h
      intro o ho
      rcases List.mem_cons.mp ho with rfl | ho
      · exact h ▸ le_max_left o m'
      · exact h ▸ le_trans (ih hrest o ho) (le_max_right a m')

theorem maxOffset_mem {l : List Nat} {m : Nat} (h : maxOffset l = some m) :
    m ∈ l := by
  induction l generalizing m with
  | nil => simp [maxOffset] at h
  | cons a rest ih =>
    cases hrest : maxOffset rest with
    | none =>
      simp only [maxOffset, hrest, Option.some.injEq] at h
      simp [← h]
    | some m' =>
      simp only [maxOffset, hrest, Option.some.injEq] at h
      rcases max_choice a m' with hc | hc
      · rw [← h, hc]
        exact List.mem_cons_self a rest
      · rw [← h, hc]
        exact List.mem_cons_of_mem a (ih hrest)

/-! ## Claims about `load_loglet_state` and `enqueue_store` -/

/-- Projection of `load_loglet_state`: the returned trim point is the stored
one, defaulting to `LogletOffset::INVALID`. -/
theorem load_loglet_state_trim_point_eq (dataCF : List (Nat × Nat))
    (meta : LogletMetadata) (loglet_id : Nat) :
    (load_loglet_state dataCF meta loglet_id).trim_point =
      meta.trim_point.getD LogletOffset.INVALID := rfl

/-- Characterization of the returned `local_tail` when the bounded reverse
seek finds a last record. -/
theorem load_loglet_state_local_tail_of_max_some (dataCF : List (Nat × Nat))
    (meta : LogletMetadata) (loglet_id : Nat) (m : Nat)
    (hm : maxOffset (logletOffsets dataCF loglet_id) = some m) :
    (load_loglet_state dataCF meta loglet_id).local_tail =
      if m + 1 = LogletOffset.OLDEST ∧
          LogletOffset.INVALID < meta.trim_point.getD LogletOffset.INVALID then
        meta.trim_point.getD LogletOffset.INVALID + 1
      else
        m + 1 := by
  unfold load_loglet_state
  rw [hm]

/-- Characterization of the returned `local_tail` when the loglet has no
data records. -/
theorem load_loglet_state_local_tail_of_max_none (dataCF : List (Nat × Nat))
    (meta : LogletMetadata) (loglet_id : Nat)
    (hm : maxOffset (logletOffsets dataCF loglet_id) = none) :
    (load_loglet_state dataCF meta loglet_id).local_tail =
      if LogletOffset.OLDEST = LogletOffset.OLDEST ∧
          LogletOffset.INVALID < meta.trim_point.getD LogletOffset.INVALID then
        meta.trim_point.getD LogletOffset.INVALID + 1
      else
        LogletOffset.OLDEST := by
  unfold load_loglet_state
  rw [hm]

/-- C2: `load_loglet_state` returns `local_tail = (highest existing record
offset) + 1` when at least one record exists for the loglet (record offsets
are positive, since `enqueue_store` rejects offset 0); when no record exists
and the stored trim point is above `LogletOffset::INVALID = 0` it returns
`trim_point + 1`; and when no record exists and no trim point is set it
returns `LogletOffset::OLDEST = 1`. -/
theorem load_loglet_state_local_tail (dataCF : List (Nat × Nat))
    (meta : LogletMetadata) (loglet_id : Nat)
    (hpos : ∀ o ∈ logletOffsets dataCF loglet_id, LogletOffset.INVALID < o) :
    (∀ m, maxOffset (logletOffsets dataCF loglet_id) = some m →
      (load_loglet_state dataCF meta loglet_id).local_tail = m + 1)
    ∧ (logletOffsets dataCF loglet_id = [] →
        LogletOffset.INVALID < meta.trim_point.getD LogletOffset.INVALID →
        (load_loglet_state dataCF meta loglet_id).local_tail =
          meta.trim_point.getD LogletOffset.INVALID + 1)
    ∧ (logletOffsets dataCF loglet_id = [] →
        meta.trim_point.getD LogletOffset.INVALID = LogletOffset.INVALID →
        (load_loglet_state dataCF meta loglet_id).local_tail =
          LogletOffset.OLDEST) := by
  refine ⟨?_, ?_, ?_⟩
  · intro m hm
    have hm0 : LogletOffset.INVALID < m := hpos m (maxOffset_mem hm)
    rw [load_loglet_state_local_tail_of_max_some dataCF meta loglet_id m hm]
    have hc : ¬(m + 1 = LogletOffset.OLDEST ∧
        LogletOffset.INVALID < meta.trim_point.getD LogletOffset.INVALID) := by
      simp only [LogletOffset.OLDEST, LogletOffset.INVALID] at hm0 ⊢
      omega
    rw [if_neg hc]
  · intro hempty htp
    rw [load_loglet_state_local_tail_of_max_none dataCF meta loglet_id
      (maxOffset_eq_none.mpr hempty), if_pos ⟨rfl, htp⟩]
  · intro hempty htp
    have hc : ¬(LogletOffset.OLDEST = LogletOffset.OLDEST ∧
        LogletOffset.INVALID < meta.trim_point.getD LogletOffset.INVALID) := by
      intro h
      rw [htp] at h
      exact absurd h.2 (lt_irrefl _)
    rw [load_loglet_state_local_tail_of_max_none dataCF meta loglet_id
      (maxOffset_eq_none.mpr hempty), if_neg hc]

/-- C2 witness: a loglet with records at offsets 3 and 7 has tail 8; an
empty loglet with trim point 5 has tail 6; a fresh loglet has tail 1. -/
theorem load_loglet_state_local_tail_witness :
    (load_loglet_state [(9, 3), (9, 7)]
      { sequencer := none, trim_point := none, sealed := false } 9).local_tail = 8
    ∧ (load_loglet_state []
      { sequencer := none, trim_point := some 5, sealed := false } 9).local_tail = 6
    ∧ (load_loglet_state []
      { sequencer := none, trim_point := none, sealed := false } 9).local_tail = 1 := by
  refine ⟨?_, ?_, ?_⟩
  · exact (load_loglet_state_local_tail [(9, 3), (9, 7)]
      { sequencer := none, trim_point := none, sealed := false } 9
      (by decide)).1 7 (by decide)
  · exact (load_loglet_state_local_tail []
      { sequencer := none, trim_point := some 5, sealed := false } 9
      (by decide)).2.1 (by decide) (by decide)
  · exact (load_loglet_state_local_tail []
      { sequencer := none, trim_point := none, sealed := false } 9
      (by decide)).2.2 (by decide) (by decide)

/-- C6: on every reachable store content — where trimming has deleted all
records at offsets at or below the stored trim point, so every remaining
record offset is above it — the `LogletState` returned by
`load_loglet_state` satisfies `trim_point < local_tail`. -/
theorem load_loglet_state_trim_point_lt_local_tail (dataCF : List (Nat × Nat))
    (meta : LogletMetadata) (loglet_id : Nat)
    (hreach : ∀ o ∈ logletOffsets dataCF loglet_id,
      meta.trim_point.getD LogletOffset.INVALID < o) :
    (load_loglet_state dataCF meta loglet_id).trim_point <
      (load_loglet_state dataCF meta loglet_id).local_tail := by
  rw [load_loglet_state_trim_point_eq]
  cases hmax : maxOffset (logletOffsets dataCF loglet_id) with
  | none =>
    rw [load_loglet_state_local_tail_of_max_none dataCF meta loglet_id hmax]
    by_cases hc : LogletOffset.INVALID < meta.trim_point.getD LogletOffset.INVALID
    · rw [if_pos ⟨rfl, hc⟩]
      exact Nat.lt_succ_self _
    · rw [if_neg (fun h => hc h.2)]
      have h0 : meta.trim_point.getD LogletOffset.INVALID = 0 :=
        Nat.eq_zero_of_not_pos hc
      exact lt_of_eq_of_lt h0 Nat.zero_lt_one
  | some m =>
    have hlt := hreach m (maxOffset_mem hmax)
    rw [load_loglet_state_local_tail_of_max_some dataCF meta loglet_id m hmax]
    by_cases hc : m + 1 = LogletOffset.OLDEST ∧
        LogletOffset.INVALID < meta.trim_point.getD LogletOffset.INVALID
    · rw [if_pos hc]
      exact Nat.lt_succ_self _
    · rw [if_neg hc]
      exact Nat.lt_succ_of_lt hlt

/-- C6 witness: a fully trimmed loglet (trim point 4, no records), and a
loglet with records above its trim point, both satisfy the invariant. -/
theorem load_loglet_state_trim_point_lt_local_tail_witness :
    (load_loglet_state []
        { sequencer := none, trim_point := some 4, sealed := false } 9).trim_point <
      (load_loglet_state []
        { sequencer := none, trim_point := some 4, sealed := false } 9).local_tail
    ∧ (load_loglet_state [(9, 5), (9, 6)]
        { sequencer := none, trim_point := some 4, sealed := false } 9).trim_point <
      (load_loglet_state [(9, 5), (9, 6)]
        { sequencer := none, trim_point := some 4, sealed := false } 9).local_tail := by
  exact ⟨load_loglet_state_trim_point_lt_local_tail []
      { sequencer := none, trim_point := some 4, sealed := false } 9 (by decide),
    load_loglet_state_trim_point_lt_local_tail [(9, 5), (9, 6)]
      { sequencer := none, trim_point := some 4, sealed := false } 9 (by decide)⟩

/-- C9: `enqueue_store` returns an `InvalidOffset` error, and enqueues
nothing to the writer, for every `Store` message whose `first_offset` is
`LogletOffset::INVALID = 0`. -/
theorem enqueue_store_rejects_invalid_offset (writer_queue : List (Store × Bool))
    (store_message : Store) (set_sequencer_in_metadata : Bool)
    (h : store_message.first_offset = LogletOffset.INVALID) :
    enqueue_store writer_queue store_message set_sequencer_in_metadata =
      .error (.invalidOffset store_message.first_offset)
    ∧ ∀ q', enqueue_store writer_queue store_message set_sequencer_in_metadata ≠
        .ok q' := by
  constructor
  · simp [enqueue_store, h]
  · intro q'
    simp [enqueue_store, h]

/-- C9 witness: a concrete `Store` with `first_offset = 0` is rejected. -/
theorem enqueue_store_rejects_invalid_offset_witness :
    enqueue_store []
        { loglet_id := 1, sequencer := 2, first_offset := 0, known_archived := 0,
          known_global_tail := 0, payloads := [10] } true =
      .error (.invalidOffset 0)
    ∧ ∀ q', enqueue_store []
        { loglet_id := 1, sequencer := 2, first_offset := 0, known_archived := 0,
          known_global_tail := 0, payloads := [10] } true ≠ .ok q' :=
  enqueue_store_rejects_invalid_offset []
    { loglet_id := 1, sequencer := 2, first_offset := 0, known_archived := 0,
      known_global_tail := 0, payloads := [10] } true (by decide)

/-! ## `read_records` -/

/-- The `Records` response of `read_records`: the response header built from
`local_tail`, the `next_offset` the reader should resume from, and the
accumulated `(offset, MaybeRecord)` entries. -/
structure RecordsResult where
  local_tail : Nat
  sealed : Bool
  next_offset : Nat
  records : List (Nat × MaybeRecord)
deriving DecidableEq, Repr

/-- One observation of `loglet_state.trim_point()` inside the read loop. The
trim point can be advanced concurrently by the log-store writer, so the loop
is parameterized by the sequence of values the observations will return,
consumed one at a time and defaulting to the initial trim point once
exhausted (a fixed loglet state is the empty sequence). -/
def observeTrim (trim_point : Nat) : List Nat → Nat × List Nat
  | [] => (trim_point, [])
  | t :: rest => (t, rest)

/-- The iteration loop of `read_records` (store.rs:269-326). `it` is the
RocksDB iterator: the suffix of the loglet's sorted data list at the
iterator's position (`seek` drops the keys below the target, `next` drops
the head). One recursive call is one loop iteration; the two checks of
`read_pointer` against `read_to` after a push are subsumed by the loop-entry
check of the next iteration, which returns the same `(records, read_pointer)`
pair that the `break` returns. -/
def readLoop (from_offset read_to trim_point : Nat) :
    List (Nat × DataRecord) → List Nat → List (Nat × MaybeRecord) → Nat →
    Nat → Bool → List (Nat × MaybeRecord) × Nat
  | [], _, records, read_pointer, _, _ => (records, read_pointer)
  | (offset, rec) :: rest, trims, records, read_pointer, size_budget,
      first_record_inserted =>
    if _h1 : read_to < read_pointer then
      (records, read_pointer)
    else if h2 : read_to < offset then
      -- we found a record but it is beyond what we want to read
      (records, read_to + 1)
    else if h3 : read_pointer < offset ∧
        offset ≤ (observeTrim trim_point trims).1 then
      -- the observed trim point advanced past the skipped offsets: drop the
      -- accumulated records, start over with a fresh trim gap and reseek
      readLoop from_offset read_to trim_point
        (((offset, rec) :: rest).dropWhile
          (fun e => decide (e.1 < (observeTrim trim_point trims).1 + 1)))
        (observeTrim trim_point trims).2
        [(from_offset, MaybeRecord.trimGap (observeTrim trim_point trims).1)]
        ((observeTrim trim_point trims).1 + 1) size_budget
        first_record_inserted
    else
      -- the trim point is observed whenever offsets were skipped
      let trims' :=
        if read_pointer < offset then (observeTrim trim_point trims).2
        else trims
      if rec.matches_key_query = false then
        readLoop from_offset read_to trim_point rest trims'
          (records ++ [(offset, MaybeRecord.filteredGap offset)])
          (offset + 1) size_budget first_record_inserted
      else if first_record_inserted = true ∧ size_budget < rec.size then
        -- we have reached the limit
        (records, offset)
      else
        readLoop from_offset read_to trim_point rest trims'
          (records ++ [(offset, MaybeRecord.data rec.payload)])
          (offset + 1) (size_budget - rec.size) true
termination_by it _ _ _ _ _ => it.length
decreasing_by
  · rw [List.dropWhile_cons, if_pos (by simpa using Nat.lt_succ_of_le h3.2)]
    exact Nat.lt_succ_of_le (List.dropWhile_sublist _).length_le
  · exact Nat.lt_succ_self _
  · exact Nat.lt_succ_self _

/-- `RocksDbLogStore::read_records` (store.rs:202-339) for one loglet whose
data-CF content is the sorted association list `db` and whose concurrent
trim-point observations are `trims`: clips the requested range to
`[max(from, trim_point+1), min(to, local_tail-1)]`, emits the leading trim
gap, and runs the iteration loop from the seek position. -/
def read_records (msg : GetRecords) (loglet_state : LogletState)
    (db : List (Nat × DataRecord)) (trims : List Nat) : RecordsResult :=
  let local_tail := loglet_state.local_tail
  let trim_point := loglet_state.trim_point
  let read_from := max msg.from_offset (trim_point + 1)
  let read_to := min msg.to_offset (local_tail - 1)
  let size_budget := msg.total_limit_in_bytes.getD USIZE_MAX
  let records :=
    if msg.from_offset < read_from then
      [(msg.from_offset, MaybeRecord.trimGap (read_from - 1))]
    else
      []
  let it := db.dropWhile (fun e => decide (e.1 < read_from))
  let result := readLoop msg.from_offset read_to trim_point it trims records
    read_from size_budget false
  { local_tail := local_tail, sealed := loglet_state.sealed,
    next_offset := result.2, records := result.1 }

/-! ### Step equations of `readLoop`

Clean one-step unfoldings of `readLoop`, one per control-flow branch of the
loop body. -/

theorem readLoop_nil (f rt tp : Nat) (trims : List Nat)
    (records : List (Nat × MaybeRecord)) (rp sb : Nat) (fi : Bool) :
    readLoop f rt tp [] trims records rp sb fi = (records, rp) := by
  rw [readLoop.eq_def]

theorem readLoop_cons_stop {f rt tp o : Nat} {r : DataRecord}
    {rest : List (Nat × DataRecord)} {trims : List Nat}
    {records : List (Nat × MaybeRecord)} {rp sb : Nat} {fi : Bool}
    (h1 : rt < rp) :
    readLoop f rt tp ((o, r) :: rest) trims records rp sb fi = (records, rp) := by
  rw [readLoop.eq_def]
  simp only [dif_pos h1]

theorem readLoop_cons_beyond {f rt tp o : Nat} {r : DataRecord}
    {rest : List (Nat × DataRecord)} {trims : List Nat}
    {records : List (Nat × MaybeRecord)} {rp sb : Nat} {fi : Bool}
    (h1 : ¬ rt < rp) (h2 : rt < o) :
    readLoop f rt tp ((o, r) :: rest) trims records rp sb fi =
      (records, rt + 1) := by
  rw [readLoop.eq_def]
  simp only [dif_neg h1, dif_pos h2]

theorem readLoop_cons_reset {f rt tp o : Nat} {r : DataRecord}
    {rest : List (Nat × DataRecord)} {trims : List Nat}
    {records : List (Nat × MaybeRecord)} {rp sb : Nat} {fi : Bool}
    (h1 : ¬ rt < rp) (h2 : ¬ rt < o)
    (h3 : rp < o ∧ o ≤ (observeTrim tp trims).1) :
    readLoop f rt tp ((o, r) :: rest) trims records rp sb fi =
      readLoop f rt tp
        (((o, r) :: rest).dropWhile
          (fun e => decide (e.1 < (observeTrim tp trims).1 + 1)))
        (observeTrim tp trims).2
        [(f, MaybeRecord.trimGap (observeTrim tp trims).1)]
        ((observeTrim tp trims).1 + 1) sb fi := by
  rw [readLoop.eq_def]
  simp only [dif_neg h1, dif_neg h2, dif_pos h3]

theorem readLoop_cons_filtered {f rt tp o : Nat} {r : DataRecord}
    {rest : List (Nat × DataRecord)} {trims : List Nat}
    {records : List (Nat × MaybeRecord)} {rp sb : Nat} {fi : Bool}
    (h1 : ¬ rt < rp) (h2 : ¬ rt < o)
    (h3 : ¬ (rp < o ∧ o ≤ (observeTrim tp trims).1))
    (hm : r.matches_key_query = false) :
    readLoop f rt tp ((o, r) :: rest) trims records rp sb fi =
      readLoop f rt tp rest
        (if rp < o then (observeTrim tp trims).2 else trims)
        (records ++ [(o, MaybeRecord.filteredGap o)]) (o + 1) sb fi := by
  rw [readLoop.eq_def]
  simp only [dif_neg h1, dif_neg h2, dif_neg h3]
  rw [if_pos hm]

theorem readLoop_cons_budget {f rt tp o : Nat} {r : DataRecord}
    {rest : List (Nat × DataRecord)} {trims : List Nat}
    {records : List (Nat × MaybeRecord)} {rp sb : Nat} {fi : Bool}
    (h1 : ¬ rt < rp) (h2 : ¬ rt < o)
    (h3 : ¬ (rp < o ∧ o ≤ (observeTrim tp trims).1))
    (hm : r.matches_key_query = true) (hb : fi = true ∧ sb < r.size) :
    readLoop f rt tp ((o, r) :: rest) trims records rp sb fi = (records, o) := by
  rw [readLoop.eq_def]
  simp only [dif_neg h1, dif_neg h2, dif_neg h3]
  rw [if_neg (by simp [hm]), if_pos hb]

theorem readLoop_cons_data {f rt tp o : Nat} {r : DataRecord}
    {rest : List (Nat × DataRecord)} {trims : List Nat}
    {records : List (Nat × MaybeRecord)} {rp sb : Nat} {fi : Bool}
    (h1 : ¬ rt < rp) (h2 : ¬ rt < o)
    (h3 : ¬ (rp < o ∧ o ≤ (observeTrim tp trims).1))
    (hm : r.matches_key_query = true) (hb : ¬ (fi = true ∧ sb < r.size)) :
    readLoop f rt tp ((o, r) :: rest) trims records rp sb fi =
      readLoop f rt tp rest
        (if rp < o then (observeTrim tp trims).2 else trims)
        (records ++ [(o, MaybeRecord.data r.payload)]) (o + 1)
        (sb - r.size) true := by
  rw [readLoop.eq_def]
  simp only [dif_neg h1, dif_neg h2, dif_neg h3]
  rw [if_neg (by simp [hm]), if_neg hb]

/-! ### Iterator helpers: seeks on a sorted association list -/

/-- After a seek to `t` on a sorted list, every entry of the iterator has a
key at or above `t`. -/
theorem dropWhile_lower_bound {db : List (Nat × DataRecord)} {t : Nat}
    (hs : List.Pairwise (fun a b => a.1 < b.1) db) :
    ∀ e ∈ db.dropWhile (fun e => decide (e.1 < t)), t ≤ e.1 := by
  induction db with
  | nil => simp
  | cons a rest ih =>
    rw [List.dropWhile_cons]
    by_cases hc : a.1 < t
    · rw [if_pos (by simpa using hc)]
      exact ih (List.pairwise_cons.mp hs).2
    · rw [if_neg (by simpa using hc)]
      intro e he
      rcases List.mem_cons.mp he with rfl | he
      · omega
      · have := (List.pairwise_cons.mp hs).1 e he
        omega

/-- A seek does not skip entries at or above the target. -/
theorem mem_dropWhile_of_le {db : List (Nat × DataRecord)} {t : Nat}
    {e : Nat × DataRecord} (hs : List.Pairwise (fun a b => a.1 < b.1) db)
    (hmem : e ∈ db) (hle : t ≤ e.1) :
    e ∈ db.dropWhile (fun e => decide (e.1 < t)) := by
  induction db with
  | nil => simp at hmem
  | cons a rest ih =>
    rw [List.dropWhile_cons]
    by_cases hc : a.1 < t
    · rw [if_pos (by simpa using hc)]
      rcases List.mem_cons.mp hmem with rfl | hmem
      · omega
      · exact ih (List.pairwise_cons.mp hs).2 hmem
    · rw [if_neg (by simpa using hc)]
      exact hmem

/-- Sortedness is preserved by a seek. -/
theorem pairwise_dropWhile {db : List (Nat × DataRecord)} {t : Nat}
    (hs : List.Pairwise (fun a b => a.1 < b.1) db) :
    List.Pairwise (fun a b => a.1 < b.1)
      (db.dropWhile (fun e => decide (e.1 < t))) :=
  List.Pairwise.sublist (List.dropWhile_sublist _) hs

/-- Appending a non-`TrimGap` entry keeps all entries after the head free
of `TrimGap`s. -/
theorem drop_one_append_no_trimGap {records : List (Nat × MaybeRecord)}
    {x : Nat × MaybeRecord}
    (h : ∀ p ∈ records.drop 1, p.2.isTrimGap = false)
    (hx : x.2.isTrimGap = false) :
    ∀ p ∈ (records ++ [x]).drop 1, p.2.isTrimGap = false := by
  cases records with
  | nil => simp [hx]
  | cons a l =>
    intro p hp
    simp only [List.cons_append, List.drop_succ_cons, List.drop_zero] at hp
    rcases List.mem_append.mp hp with hp | hp
    · exact h p (by simpa using hp)
    · rw [List.mem_singleton.mp hp]
      exact hx

/-- Unfolding of `read_records` into its clipped bounds, leading trim gap
and loop call. -/
theorem read_records_def (msg : GetRecords) (loglet_state : LogletState)
    (db : List (Nat × DataRecord)) (trims : List Nat) :
    read_records msg loglet_state db trims =
      { local_tail := loglet_state.local_tail,
        sealed := loglet_state.sealed,
        next_offset := (readLoop msg.from_offset
          (min msg.to_offset (loglet_state.local_tail - 1))
          loglet_state.trim_point
          (db.dropWhile (fun e =>
            decide (e.1 < max msg.from_offset (loglet_state.trim_point + 1))))
          trims
          (if msg.from_offset < max msg.from_offset (loglet_state.trim_point + 1)
           then [(msg.from_offset, MaybeRecord.trimGap
              (max msg.from_offset (loglet_state.trim_point + 1) - 1))]
           else [])
          (max msg.from_offset (loglet_state.trim_point + 1))
          (msg.total_limit_in_bytes.getD USIZE_MAX) false).2,
        records := (readLoop msg.from_offset
          (min msg.to_offset (loglet_state.local_tail - 1))
          loglet_state.trim_point
          (db.dropWhile (fun e =>
            decide (e.1 < max msg.from_offset (loglet_state.trim_point + 1))))
          trims
          (if msg.from_offset < max msg.from_offset (loglet_state.trim_point + 1)
           then [(msg.from_offset, MaybeRecord.trimGap
              (max msg.from_offset (loglet_state.trim_point + 1) - 1))]
           else [])
          (max msg.from_offset (loglet_state.trim_point + 1))
          (msg.total_limit_in_bytes.getD USIZE_MAX) false).1 } := rfl

/-! ### The loop under a fixed loglet state

With no concurrent trim advance (`trims = []`) and the read pointer above
the trim point, the reseek branch is dead: the loop only appends entries,
each with an offset between the read pointer and `read_to`. -/

theorem readLoop_no_reset_suffix (f rt tp : Nat)
    (it : List (Nat × DataRecord)) (trims : List Nat)
    (records : List (Nat × MaybeRecord)) (rp sb : Nat) (fi : Bool) :
    List.Pairwise (fun a b => a.1 < b.1) it →
    trims = [] →
    (∀ e ∈ it, rp ≤ e.1) →
    tp < rp →
    ∃ suffix, (readLoop f rt tp it trims records rp sb fi).1 = records ++ suffix
      ∧ ∀ p ∈ suffix, rp ≤ p.1 ∧ p.1 ≤ rt := by
  induction it, trims, records, rp, sb, fi using readLoop.induct f rt tp with
  | case1 trims records rp sb fi =>
    intro _ _ _ _
    exact ⟨[], by rw [readLoop_nil]; simp, by simp⟩
  | case2 o r rest trims records rp sb fi h1 =>
    intro _ _ _ _
    exact ⟨[], by rw [readLoop_cons_stop h1]; simp, by simp⟩
  | case3 o r rest trims records rp sb fi h1 h2 =>
    intro _ _ _ _
    exact ⟨[], by rw [readLoop_cons_beyond h1 h2]; simp, by simp⟩
  | case4 o r rest trims records rp sb fi h1 h2 h3 ih =>
    intro hs htr hb htp
    subst htr
    exfalso
    have h4 := hb (o, r) (List.mem_cons_self _ _)
    have h5 := h3.2
    simp only [observeTrim] at h5
    simp only at h4
    omega
  | case5 o r rest trims records rp sb fi h1 h2 h3 trims' hm ih =>
    intro hs htr hb htp
    subst htr
    have hro : rp ≤ o := by simpa using hb (o, r) (List.mem_cons_self _ _)
    have hor : o ≤ rt := by omega
    have htr' : trims' = [] := by
      simp only [trims', observeTrim]
      exact ite_self []
    obtain ⟨suffix, hsuf, hbound⟩ := ih (List.pairwise_cons.mp hs).2 htr'
      (fun e he => Nat.succ_le_of_lt ((List.pairwise_cons.mp hs).1 e he))
      (by omega)
    refine ⟨(o, MaybeRecord.filteredGap o) :: suffix, ?_, ?_⟩
    · rw [readLoop_cons_filtered h1 h2 h3 hm]
      rw [show (if rp < o then (observeTrim tp []).2 else []) = trims' from rfl]
      rw [hsuf, List.append_assoc]
      rfl
    · intro p hp
      rcases List.mem_cons.mp hp with rfl | hp
      · exact ⟨hro, hor⟩
      · have := hbound p hp
        omega
  | case6 o r rest trims records rp sb fi h1 h2 h3 hm hbudget =>
    intro hs htr hb htp
    have hmt : r.matches_key_query = true := by
      revert hm
      cases r.matches_key_query <;> simp
    exact ⟨[], by rw [readLoop_cons_budget h1 h2 h3 hmt hbudget]; simp, by simp⟩
  | case7 o r rest trims records rp sb fi h1 h2 h3 trims' hm hbudget ih =>
    intro hs htr hb htp
    subst htr
    have hmt : r.matches_key_query = true := by
      revert hm
      cases r.matches_key_query <;> simp
    have hro : rp ≤ o := by simpa using hb (o, r) (List.mem_cons_self _ _)
    have hor : o ≤ rt := by omega
    have htr' : trims' = [] := by
      simp only [trims', observeTrim]
      exact ite_self []
    obtain ⟨suffix, hsuf, hbound⟩ := ih (List.pairwise_cons.mp hs).2 htr'
      (fun e he => Nat.succ_le_of_lt ((List.pairwise_cons.mp hs).1 e he))
      (by omega)
    refine ⟨(o, MaybeRecord.data r.payload) :: suffix, ?_, ?_⟩
    · rw [readLoop_cons_data h1 h2 h3 hmt hbudget]
      rw [show (if rp < o then (observeTrim tp []).2 else []) = trims' from rfl]
      rw [hsuf, List.append_assoc]
      rfl
    · intro p hp
      rcases List.mem_cons.mp hp with rfl | hp
      · exact ⟨hro, hor⟩
      · have := hbound p hp
        omega


/-- C1: for every `GetRecords` request processed against a fixed loglet
state `(trim_point, local_tail)` (no concurrent trim advance), every `Data`
or `FilteredGap` entry of the response has an offset inside
`[max(from, trim_point+1), min(to, local_tail-1)]`, and whenever the range
start was clipped the first entry is `(from_offset, TrimGap(read_from-1))`. -/
theorem read_records_range_and_leading_gap (msg : GetRecords)
    (st : LogletState) (db : List (Nat × DataRecord))
    (hsorted : List.Pairwise (fun a b => a.1 < b.1) db) :
    (∀ p ∈ (read_records msg st db []).records,
        (p.2.isData || p.2.isFilteredGap) = true →
        max msg.from_offset (st.trim_point + 1) ≤ p.1 ∧
        p.1 ≤ min msg.to_offset (st.local_tail - 1))
    ∧ (msg.from_offset < max msg.from_offset (st.trim_point + 1) →
        (read_records msg st db []).records.head? =
          some (msg.from_offset, MaybeRecord.trimGap
            (max msg.from_offset (st.trim_point + 1) - 1))) := by
  obtain ⟨suffix, hsuf, hbound⟩ := readLoop_no_reset_suffix msg.from_offset
    (min msg.to_offset (st.local_tail - 1)) st.trim_point
    (db.dropWhile (fun e =>
      decide (e.1 < max msg.from_offset (st.trim_point + 1)))) []
    (if msg.from_offset < max msg.from_offset (st.trim_point + 1)
     then [(msg.from_offset, MaybeRecord.trimGap
        (max msg.from_offset (st.trim_point + 1) - 1))]
     else [])
    (max msg.from_offset (st.trim_point + 1))
    (msg.total_limit_in_bytes.getD USIZE_MAX) false
    (pairwise_dropWhile hsorted) rfl (dropWhile_lower_bound hsorted)
    (by omega)
  have hrec : (read_records msg st db []).records =
      (if msg.from_offset < max msg.from_offset (st.trim_point + 1)
       then [(msg.from_offset, MaybeRecord.trimGap
          (max msg.from_offset (st.trim_point + 1) - 1))]
       else []) ++ suffix := hsuf
  constructor
  · intro p hp hflag
    rw [hrec] at hp
    rcases List.mem_append.mp hp with hp | hp
    · by_cases hc : msg.from_offset < max msg.from_offset (st.trim_point + 1)
      · rw [if_pos hc] at hp
        rw [List.mem_singleton.mp hp] at hflag
        simp [MaybeRecord.isData, MaybeRecord.isFilteredGap] at hflag
      · rw [if_neg hc] at hp
        simp at hp
    · exact hbound p hp
  · intro hlt
    rw [hrec, if_pos hlt]
    rfl

/-- C1 witness: a request from offset 1 with trim point 3 and tail 6 gets a
leading `TrimGap` to 3 and data entries inside the clipped range `[4, 5]`. -/
theorem read_records_range_and_leading_gap_witness :
    (∀ p ∈ (read_records ⟨1, 10, none⟩ ⟨none, 6, false, 3⟩
        [(4, ⟨5, true, 104⟩), (5, ⟨5, true, 105⟩)] []).records,
        (p.2.isData || p.2.isFilteredGap) = true → 4 ≤ p.1 ∧ p.1 ≤ 5)
    ∧ (read_records ⟨1, 10, none⟩ ⟨none, 6, false, 3⟩
        [(4, ⟨5, true, 104⟩), (5, ⟨5, true, 105⟩)] []).records.head? =
          some (1, MaybeRecord.trimGap 3) := by
  have h := read_records_range_and_leading_gap ⟨1, 10, none⟩
    ⟨none, 6, false, 3⟩ [(4, ⟨5, true, 104⟩), (5, ⟨5, true, 105⟩)] (by decide)
  exact ⟨h.1, h.2 (by decide)⟩

/-- If some record of the iterator matches the filter and lies in range (or
a `Data` entry was already accumulated), the loop emits a `Data` entry: the
budget check is skipped for the first insertion. -/
theorem readLoop_finds_data (f rt tp : Nat)
    (it : List (Nat × DataRecord)) (trims : List Nat)
    (records : List (Nat × MaybeRecord)) (rp sb : Nat) (fi : Bool) :
    List.Pairwise (fun a b => a.1 < b.1) it →
    trims = [] →
    (∀ e ∈ it, rp ≤ e.1) →
    tp < rp →
    (fi = true → ∃ p ∈ records, p.2.isData = true) →
    ((∃ e ∈ it, e.2.matches_key_query = true ∧ e.1 ≤ rt)
      ∨ ∃ p ∈ records, p.2.isData = true) →
    ∃ p ∈ (readLoop f rt tp it trims records rp sb fi).1,
      p.2.isData = true := by
  induction it, trims, records, rp, sb, fi using readLoop.induct f rt tp with
  | case1 trims records rp sb fi =>
    intro _ _ _ _ _ hwit
    rw [readLoop_nil]
    rcases hwit with ⟨e, he, _⟩ | h
    · simp at he
    · exact h
  | case2 o r rest trims records rp sb fi h1 =>
    intro _ _ hb _ _ hwit
    rw [readLoop_cons_stop h1]
    rcases hwit with ⟨e, he, _, hle⟩ | h
    · have := hb e he
      omega
    · exact h
  | case3 o r rest trims records rp sb fi h1 h2 =>
    intro hs _ hb _ _ hwit
    rw [readLoop_cons_beyond h1 h2]
    rcases hwit with ⟨e, he, _, hle⟩ | h
    · rcases List.mem_cons.mp he with rfl | he
      · simp at hle
        omega
      · have := (List.pairwise_cons.mp hs).1 e he
        omega
    · exact h
  | case4 o r rest trims records rp sb fi h1 h2 h3 ih =>
    intro hs htr hb htp _ _
    subst htr
    exfalso
    have h4 := hb (o, r) (List.mem_cons_self _ _)
    have h5 := h3.2
    simp only [observeTrim] at h5
    simp only at h4
    omega
  | case5 o r rest trims records rp sb fi h1 h2 h3 trims' hm ih =>
    intro hs htr hb htp hfi hwit
    subst htr
    have htr' : trims' = [] := by
      simp only [trims', observeTrim]
      exact ite_self []
    refine readLoop_cons_filtered h1 h2 h3 hm ▸ ?_
    refine ih (List.pairwise_cons.mp hs).2 htr'
      (fun e he => Nat.succ_le_of_lt ((List.pairwise_cons.mp hs).1 e he))
      ?_ ?_ ?_
    · have hro : rp ≤ o := by simpa using hb (o, r) (List.mem_cons_self _ _)
      omega
    · intro hfit
      obtain ⟨p, hp, hpd⟩ := hfi hfit
      exact ⟨p, List.mem_append_left _ hp, hpd⟩
    · rcases hwit with ⟨e, he, hem, hele⟩ | ⟨p, hp, hpd⟩
      · rcases List.mem_cons.mp he with rfl | he
        · simp at hem
          rw [hem] at hm
          simp at hm
        · exact Or.inl ⟨e, he, hem, hele⟩
      · exact Or.inr ⟨p, List.mem_append_left _ hp, hpd⟩
  | case6 o r rest trims records rp sb fi h1 h2 h3 hm hbudget =>
    intro hs htr hb htp hfi hwit
    have hmt : r.matches_key_query = true := by
      revert hm
      cases r.matches_key_query <;> simp
    rw [readLoop_cons_budget h1 h2 h3 hmt hbudget]
    exact hfi hbudget.1
  | case7 o r rest trims records rp sb fi h1 h2 h3 trims' hm hbudget ih =>
    intro hs htr hb htp hfi hwit
    subst htr
    have hmt : r.matches_key_query = true := by
      revert hm
      cases r.matches_key_query <;> simp
    have htr' : trims' = [] := by
      simp only [trims', observeTrim]
      exact ite_self []
    refine readLoop_cons_data h1 h2 h3 hmt hbudget ▸ ?_
    refine ih (List.pairwise_cons.mp hs).2 htr'
      (fun e he => Nat.succ_le_of_lt ((List.pairwise_cons.mp hs).1 e he))
      ?_ ?_ ?_
    · have hro : rp ≤ o := by simpa using hb (o, r) (List.mem_cons_self _ _)
      omega
    · intro _
      refine ⟨(o, MaybeRecord.data r.payload), List.mem_append_right _ ?_, rfl⟩
      exact List.mem_singleton.mpr rfl
    · refine Or.inr ⟨(o, MaybeRecord.data r.payload),
        List.mem_append_right _ ?_, rfl⟩
      exact List.mem_singleton.mpr rfl

/-- C8: the byte budget is only enforced after the first `Data` record: if
the clipped range holds at least one stored record matching the filter, the
response contains at least one `Data` entry no matter how small
`total_limit_in_bytes` is. -/
theorem read_records_first_data_ignores_budget (msg : GetRecords)
    (st : LogletState) (db : List (Nat × DataRecord)) (o : Nat)
    (r : DataRecord)
    (hsorted : List.Pairwise (fun a b => a.1 < b.1) db)
    (hmem : (o, r) ∈ db)
    (hmatch : r.matches_key_query = true)
    (hlo : max msg.from_offset (st.trim_point + 1) ≤ o)
    (hhi : o ≤ min msg.to_offset (st.local_tail - 1)) :
    ∃ p ∈ (read_records msg st db []).records, p.2.isData = true := by
  have h := readLoop_finds_data msg.from_offset
    (min msg.to_offset (st.local_tail - 1)) st.trim_point
    (db.dropWhile (fun e =>
      decide (e.1 < max msg.from_offset (st.trim_point + 1)))) []
    (if msg.from_offset < max msg.from_offset (st.trim_point + 1)
     then [(msg.from_offset, MaybeRecord.trimGap
        (max msg.from_offset (st.trim_point + 1) - 1))]
     else [])
    (max msg.from_offset (st.trim_point + 1))
    (msg.total_limit_in_bytes.getD USIZE_MAX) false
    (pairwise_dropWhile hsorted) rfl (dropWhile_lower_bound hsorted)
    (by omega)
    (by intro hfalse; exact absurd hfalse (by simp))
    (Or.inl ⟨(o, r), mem_dropWhile_of_le hsorted hmem hlo, hmatch, hhi⟩)
  exact h

/-- C8 witness: with a byte budget of 1 and a matching stored record of
size 5 inside the clipped range, the response still contains a `Data`
entry. -/
theorem read_records_first_data_ignores_budget_witness :
    ∃ p ∈ (read_records ⟨1, 10, some 1⟩ ⟨none, 6, false, 3⟩
        [(4, ⟨5, true, 104⟩)] []).records, p.2.isData = true :=
  read_records_first_data_ignores_budget ⟨1, 10, some 1⟩
    ⟨none, 6, false, 3⟩ [(4, ⟨5, true, 104⟩)] 4 ⟨5, true, 104⟩
    (by decide) (by decide) (by decide) (by decide) (by decide)

/-- The loop preserves strictly increasing offsets of the accumulated
entries, under arbitrary concurrent trim-point observations. -/
theorem readLoop_pairwise (f rt tp : Nat)
    (it : List (Nat × DataRecord)) (trims : List Nat)
    (records : List (Nat × MaybeRecord)) (rp sb : Nat) (fi : Bool) :
    List.Pairwise (fun a b => a.1 < b.1) it →
    (∀ e ∈ it, rp ≤ e.1) →
    List.Pairwise (fun a b => a.1 < b.1) records →
    (∀ p ∈ records, p.1 < rp) →
    f ≤ rp →
    List.Pairwise (fun a b => a.1 < b.1)
      (readLoop f rt tp it trims records rp sb fi).1 := by
  induction it, trims, records, rp, sb, fi using readLoop.induct f rt tp with
  | case1 trims records rp sb fi =>
    intro _ _ hrec _ _
    rw [readLoop_nil]
    exact hrec
  | case2 o r rest trims records rp sb fi h1 =>
    intro _ _ hrec _ _
    rw [readLoop_cons_stop h1]
    exact hrec
  | case3 o r rest trims records rp sb fi h1 h2 =>
    intro _ _ hrec _ _
    rw [readLoop_cons_beyond h1 h2]
    exact hrec
  | case4 o r rest trims records rp sb fi h1 h2 h3 ih =>
    intro hs hb hrec hrlt hf
    rw [readLoop_cons_reset h1 h2 h3]
    have hro : rp ≤ o := by simpa using hb (o, r) (List.mem_cons_self _ _)
    refine ih (pairwise_dropWhile hs) (dropWhile_lower_bound hs)
      (List.pairwise_singleton _ _) ?_ ?_
    · intro p hp
      rw [List.mem_singleton.mp hp]
      have := h3.1
      have := h3.2
      omega
    · have := h3.1
      have := h3.2
      omega
  | case5 o r rest trims records rp sb fi h1 h2 h3 trims' hm ih =>
    intro hs hb hrec hrlt hf
    rw [readLoop_cons_filtered h1 h2 h3 hm]
    have hro : rp ≤ o := by simpa using hb (o, r) (List.mem_cons_self _ _)
    refine ih (List.pairwise_cons.mp hs).2
      (fun e he => Nat.succ_le_of_lt ((List.pairwise_cons.mp hs).1 e he))
      ?_ ?_ (by omega)
    · rw [List.pairwise_append]
      refine ⟨hrec, List.pairwise_singleton _ _, ?_⟩
      intro a ha b hbb
      rw [List.mem_singleton.mp hbb]
      have := hrlt a ha
      simp only
      omega
    · intro p hp
      rcases List.mem_append.mp hp with hp | hp
      · have := hrlt p hp
        omega
      · rw [List.mem_singleton.mp hp]
        simp only
        omega
  | case6 o r rest trims records rp sb fi h1 h2 h3 hm hbudget =>
    intro _ _ hrec _ _
    have hmt : r.matches_key_query = true := by
      revert hm
      cases r.matches_key_query <;> simp
    rw [readLoop_cons_budget h1 h2 h3 hmt hbudget]
    exact hrec
  | case7 o r rest trims records rp sb fi h1 h2 h3 trims' hm hbudget ih =>
    intro hs hb hrec hrlt hf
    have hmt : r.matches_key_query = true := by
      revert hm
      cases r.matches_key_query <;> simp
    rw [readLoop_cons_data h1 h2 h3 hmt hbudget]
    have hro : rp ≤ o := by simpa using hb (o, r) (List.mem_cons_self _ _)
    refine ih (List.pairwise_cons.mp hs).2
      (fun e he => Nat.succ_le_of_lt ((List.pairwise_cons.mp hs).1 e he))
      ?_ ?_ (by omega)
    · rw [List.pairwise_append]
      refine ⟨hrec, List.pairwise_singleton _ _, ?_⟩
      intro a ha b hbb
      rw [List.mem_singleton.mp hbb]
      have := hrlt a ha
      simp only
      omega
    · intro p hp
      rcases List.mem_append.mp hp with hp | hp
      · have := hrlt p hp
        omega
      · rw [List.mem_singleton.mp hp]
        simp only
        omega

/-- C10: in every `Records` response of `read_records` — even under
concurrent trim-point advances — the offsets of the entries are strictly
increasing. -/
theorem read_records_offsets_strictly_increasing (msg : GetRecords)
    (st : LogletState) (db : List (Nat × DataRecord)) (trims : List Nat)
    (hsorted : List.Pairwise (fun a b => a.1 < b.1) db) :
    List.Pairwise (fun a b => a.1 < b.1)
      (read_records msg st db trims).records := by
  have h := readLoop_pairwise msg.from_offset
    (min msg.to_offset (st.local_tail - 1)) st.trim_point
    (db.dropWhile (fun e =>
      decide (e.1 < max msg.from_offset (st.trim_point + 1)))) trims
    (if msg.from_offset < max msg.from_offset (st.trim_point + 1)
     then [(msg.from_offset, MaybeRecord.trimGap
        (max msg.from_offset (st.trim_point + 1) - 1))]
     else [])
    (max msg.from_offset (st.trim_point + 1))
    (msg.total_limit_in_bytes.getD USIZE_MAX) false
    (pairwise_dropWhile hsorted) (dropWhile_lower_bound hsorted)
    ?_ ?_ (le_max_left _ _)
  · exact h
  · by_cases hc : msg.from_offset < max msg.from_offset (st.trim_point + 1)
    · rw [if_pos hc]
      exact List.pairwise_singleton _ _
    · rw [if_neg hc]
      exact List.Pairwise.nil
  · intro p hp
    by_cases hc : msg.from_offset < max msg.from_offset (st.trim_point + 1)
    · rw [if_pos hc] at hp
      rw [List.mem_singleton.mp hp]
      exact hc
    · rw [if_neg hc] at hp
      simp at hp

/-- C10 witness: a response with a leading gap and two data entries has
strictly increasing offsets, also when the trim point advances mid-read. -/
theorem read_records_offsets_strictly_increasing_witness :
    List.Pairwise (fun a b => a.1 < b.1)
      (read_records ⟨1, 10, none⟩ ⟨none, 6, false, 3⟩
        [(4, ⟨5, true, 104⟩), (5, ⟨5, true, 105⟩)] [4]).records :=
  read_records_offsets_strictly_increasing ⟨1, 10, none⟩ ⟨none, 6, false, 3⟩
    [(4, ⟨5, true, 104⟩), (5, ⟨5, true, 105⟩)] [4] (by decide)

/-- After the head entry, the loop never appends a `TrimGap`: the only
`TrimGap`s in the accumulator are the leading one and the one installed by
a reset, which clears everything else first. -/
theorem readLoop_trimGap_only_head (f rt tp : Nat)
    (it : List (Nat × DataRecord)) (trims : List Nat)
    (records : List (Nat × MaybeRecord)) (rp sb : Nat) (fi : Bool) :
    (∀ p ∈ records.drop 1, p.2.isTrimGap = false) →
    ∀ p ∈ (readLoop f rt tp it trims records rp sb fi).1.drop 1,
      p.2.isTrimGap = false := by
  induction it, trims, records, rp, sb, fi using readLoop.induct f rt tp with
  | case1 trims records rp sb fi =>
    intro h
    rw [readLoop_nil]
    exact h
  | case2 o r rest trims records rp sb fi h1 =>
    intro h
    rw [readLoop_cons_stop h1]
    exact h
  | case3 o r rest trims records rp sb fi h1 h2 =>
    intro h
    rw [readLoop_cons_beyond h1 h2]
    exact h
  | case4 o r rest trims records rp sb fi h1 h2 h3 ih =>
    intro h
    rw [readLoop_cons_reset h1 h2 h3]
    exact ih (by simp)
  | case5 o r rest trims records rp sb fi h1 h2 h3 trims' hm ih =>
    intro h
    rw [readLoop_cons_filtered h1 h2 h3 hm]
    exact ih (drop_one_append_no_trimGap h rfl)
  | case6 o r rest trims records rp sb fi h1 h2 h3 hm hbudget =>
    intro h
    have hmt : r.matches_key_query = true := by
      revert hm
      cases r.matches_key_query <;> simp
    rw [readLoop_cons_budget h1 h2 h3 hmt hbudget]
    exact h
  | case7 o r rest trims records rp sb fi h1 h2 h3 trims' hm hbudget ih =>
    intro h
    have hmt : r.matches_key_query = true := by
      revert hm
      cases r.matches_key_query <;> simp
    rw [readLoop_cons_data h1 h2 h3 hmt hbudget]
    exact ih (drop_one_append_no_trimGap h rfl)

/-- C3: when the loop finds the iterator skipped offsets and the freshly
observed trim point has reached the found offset, the accumulated entries
are discarded and replaced by the single entry
`(from_offset, TrimGap(new_trim_point))` and iteration resumes at
`new_trim_point + 1` (first conjunct, the exact one-step behaviour of the
loop); consequently a response never mixes records with a later trim gap:
in every response every `TrimGap` entry sits at the head (second
conjunct). -/
theorem read_records_trim_advance_resets (f rt tp o : Nat) (r : DataRecord)
    (rest : List (Nat × DataRecord)) (trims : List Nat)
    (records : List (Nat × MaybeRecord)) (rp sb : Nat) (fi : Bool)
    (msg : GetRecords) (st : LogletState) (db : List (Nat × DataRecord))
    (obs : List Nat)
    (h1 : ¬ rt < rp) (h2 : ¬ rt < o) (h3 : rp < o)
    (h4 : o ≤ (observeTrim tp trims).1) :
    readLoop f rt tp ((o, r) :: rest) trims records rp sb fi =
      readLoop f rt tp
        (((o, r) :: rest).dropWhile
          (fun e => decide (e.1 < (observeTrim tp trims).1 + 1)))
        (observeTrim tp trims).2
        [(f, MaybeRecord.trimGap (observeTrim tp trims).1)]
        ((observeTrim tp trims).1 + 1) sb fi
    ∧ ∀ p ∈ (read_records msg st db obs).records.drop 1,
        p.2.isTrimGap = false := by
  constructor
  · exact readLoop_cons_reset h1 h2 ⟨h3, h4⟩
  · have h := readLoop_trimGap_only_head msg.from_offset
      (min msg.to_offset (st.local_tail - 1)) st.trim_point
      (db.dropWhile (fun e =>
        decide (e.1 < max msg.from_offset (st.trim_point + 1)))) obs
      (if msg.from_offset < max msg.from_offset (st.trim_point + 1)
       then [(msg.from_offset, MaybeRecord.trimGap
          (max msg.from_offset (st.trim_point + 1) - 1))]
       else [])
      (max msg.from_offset (st.trim_point + 1))
      (msg.total_limit_in_bytes.getD USIZE_MAX) false ?_
    · exact h
    · by_cases hc : msg.from_offset < max msg.from_offset (st.trim_point + 1)
      · rw [if_pos hc]
        simp
      · rw [if_neg hc]
        simp

/-- C3 witness: a concrete loop state where the observed trim point reaches
the next found offset, and a concrete response (with a mid-read trim
advance) whose only `TrimGap` is its first entry. -/
theorem read_records_trim_advance_resets_witness :
    readLoop 1 10 0 [(5, ⟨5, true, 105⟩)] [5] [(1, MaybeRecord.data 101)]
        2 100 true =
      readLoop 1 10 0
        ([(5, ⟨5, true, 105⟩)].dropWhile
          (fun e => decide (e.1 < (observeTrim 0 [5]).1 + 1)))
        (observeTrim 0 [5]).2
        [(1, MaybeRecord.trimGap (observeTrim 0 [5]).1)]
        ((observeTrim 0 [5]).1 + 1) 100 true
    ∧ ∀ p ∈ (read_records ⟨1, 10, none⟩ ⟨none, 6, false, 0⟩
        [(1, ⟨5, true, 101⟩), (5, ⟨5, true, 105⟩)] [5]).records.drop 1,
        p.2.isTrimGap = false :=
  read_records_trim_advance_resets 1 10 0 5 ⟨5, true, 105⟩ [] [5]
    [(1, MaybeRecord.data 101)] 2 100 true ⟨1, 10, none⟩
    ⟨none, 6, false, 0⟩ [(1, ⟨5, true, 101⟩), (5, ⟨5, true, 105⟩)] [5]
    (by decide) (by decide) (by decide) (by decide)

/-! ## Bifrost `LogReadStream` (read_stream.rs) -/

/-- `crate::Record` as matched by `calculate_read_pointer`
(read_stream.rs:88-97): a `TrimGap { until }`, a `Data` payload, or a
`Seal`. -/
inductive BRecord where
  | trimGap (until_lsn : Nat)
  | data (payload : Nat)
  | seal (seal_info : Nat)
deriving DecidableEq, Repr

/-- Is this a `Data` record? -/
def BRecord.isData : BRecord → Bool
  | .data _ => true
  | _ => false

/-- `LogRecord`: an LSN (`offset`) together with the record. -/
structure LogRecord where
  offset : Nat
  record : BRecord
deriving DecidableEq, Repr

/-- `LogReadStream::calculate_read_pointer` (read_stream.rs:88-97): trim
gaps fast-forward to the end of the gap, data and seal records advance to
their own LSN. -/
def calculate_read_pointer (record : LogRecord) : Nat :=
  match record.record with
  | .trimGap until_lsn => until_lsn
  | .data _ => record.offset
  | .seal _ => record.offset

/-- The mutable state of `LogReadStream` used by `poll_next`. -/
structure ReadStreamState where
  read_pointer : Nat
  until_lsn : Nat
  terminated : Bool
deriving DecidableEq, Repr

/-- What polling the inner loglet stream returns: `Poll::Pending`,
`Ready(None)`, `Ready(Some(Ok(record)))` (already decoded) or
`Ready(Some(Err(..)))`. -/
inductive InnerPoll where
  | pending
  | finished
  | item (r : LogRecord)
  | failed
deriving DecidableEq, Repr

/-- What `poll_next` returns to the caller. -/
inductive PollOutput where
  | pending
  | readyNone
  | readyRecord (r : LogRecord)
  | readyError
deriving DecidableEq, Repr

/-- `LogReadStream::poll_next` (read_stream.rs:118-151): terminates when the
read pointer reached `until_lsn`; otherwise forwards the inner stream's
poll, advancing the read pointer via `calculate_read_pointer` on a record. -/
def poll_next (s : ReadStreamState) (inner : InnerPoll) :
    ReadStreamState × PollOutput :=
  if s.until_lsn ≤ s.read_pointer then
    ({ s with terminated := true }, .readyNone)
  else
    match inner with
    | .pending => (s, .pending)
    | .item r =>
      ({ s with read_pointer := calculate_read_pointer r }, .readyRecord r)
    | .failed => (s, .readyError)
    | .finished => ({ s with terminated := true }, .readyNone)

/-- C4: `poll_next` returns `Ready(None)` and sets `terminated` whenever the
read pointer has reached `until_lsn`; on yielding a `TrimGap` record the
read pointer is fast-forwarded to the gap's `until`; on yielding a `Data`
record the read pointer becomes that record's LSN. -/
theorem poll_next_pointer_rules (s : ReadStreamState) (r : LogRecord)
    (inner : InnerPoll) :
    (s.until_lsn ≤ s.read_pointer →
      poll_next s inner =
        ({ read_pointer := s.read_pointer, until_lsn := s.until_lsn,
           terminated := true }, PollOutput.readyNone))
    ∧ (s.read_pointer < s.until_lsn → ∀ u, r.record = BRecord.trimGap u →
        (poll_next s (.item r)).1.read_pointer = u
        ∧ (poll_next s (.item r)).2 = PollOutput.readyRecord r)
    ∧ (s.read_pointer < s.until_lsn → ∀ d, r.record = BRecord.data d →
        (poll_next s (.item r)).1.read_pointer = r.offset
        ∧ (poll_next s (.item r)).2 = PollOutput.readyRecord r) := by
  refine ⟨?_, ?_, ?_⟩
  · intro h
    rw [poll_next.eq_def, if_pos h]
  · intro h u hu
    rw [poll_next.eq_def, if_neg (by omega)]
    simp [calculate_read_pointer, hu]
  · intro h d hd
    rw [poll_next.eq_def, if_neg (by omega)]
    simp [calculate_read_pointer, hd]

/-- C4 witness: a terminated poll at `read_pointer = until = 5`; a trim gap
fast-forwarding 2 to 7; a data record advancing 2 to 3. -/
theorem poll_next_pointer_rules_witness :
    poll_next ⟨5, 5, false⟩ InnerPoll.pending =
      ({ read_pointer := 5, until_lsn := 5, terminated := true },
        PollOutput.readyNone)
    ∧ ((poll_next ⟨2, 9, false⟩ (.item ⟨3, BRecord.trimGap 7⟩)).1.read_pointer = 7
        ∧ (poll_next ⟨2, 9, false⟩ (.item ⟨3, BRecord.trimGap 7⟩)).2 =
            PollOutput.readyRecord ⟨3, BRecord.trimGap 7⟩)
    ∧ ((poll_next ⟨2, 9, false⟩ (.item ⟨3, BRecord.data 42⟩)).1.read_pointer = 3
        ∧ (poll_next ⟨2, 9, false⟩ (.item ⟨3, BRecord.data 42⟩)).2 =
            PollOutput.readyRecord ⟨3, BRecord.data 42⟩) :=
  ⟨(poll_next_pointer_rules ⟨5, 5, false⟩ ⟨3, BRecord.trimGap 7⟩
      InnerPoll.pending).1 (by decide),
    (poll_next_pointer_rules ⟨2, 9, false⟩ ⟨3, BRecord.trimGap 7⟩
      InnerPoll.pending).2.1 (by decide) 7 rfl,
    (poll_next_pointer_rules ⟨2, 9, false⟩ ⟨3, BRecord.data 42⟩
      InnerPoll.pending).2.2 (by decide) 42 rfl⟩

/-- A whole run of the read stream: `items` are the records the inner loglet
stream will yield over the stream's lifetime; the stream is polled until it
terminates or the inner stream has nothing more (in which case the last
poll is `Pending` — the stream parks). Returns the yielded records, the
final read pointer and whether the stream terminated. -/
def run_read_stream (until_lsn : Nat) : Nat → List LogRecord →
    List LogRecord × Nat × Bool
  | p, [] => ([], p, ((poll_next ⟨p, until_lsn, false⟩ .pending).1).terminated)
  | p, r :: rest =>
    let s := (poll_next ⟨p, until_lsn, false⟩ (.item r)).1
    if s.terminated then
      ([], p, true)
    else
      match run_read_stream until_lsn s.read_pointer rest with
      | (ys, fp, t) => (r :: ys, fp, t)

/-- Modelled from the spec: the per-loglet read streams backing
`LogReadStream` (the local loglet's read stream is not under src/) yield,
from a read pointer `p`, a contiguous sequence: the next record is either a
`Data` record at offset `p+1` or a `TrimGap` starting at `p+1` whose
`until` is at least its offset; the loglet stream stops at seals, so no
`Seal` record is yielded. -/
def LogletTrace : Nat → List LogRecord → Prop
  | _, [] => True
  | p, r :: rest =>
    r.offset = p + 1 ∧
    match r.record with
    | .data _ => LogletTrace r.offset rest
    | .trimGap until_lsn => r.offset ≤ until_lsn ∧ LogletTrace until_lsn rest
    | .seal _ => False

/-- Does the yielded record `r` cover LSN `l` as a trim gap? -/
def gapCovers (l : Nat) (r : LogRecord) : Bool :=
  match r.record with
  | .trimGap until_lsn => decide (r.offset ≤ l ∧ l ≤ until_lsn)
  | _ => false

/-- Number of yielded trim gaps covering LSN `l`. -/
def gapCoverCount (ys : List LogRecord) (l : Nat) : Nat :=
  (ys.filter (gapCovers l)).length

/-- Number of yielded `Data` records carrying LSN `l`. -/
def dataCount (ys : List LogRecord) (l : Nat) : Nat :=
  (ys.filter (fun r => r.record.isData && r.offset == l)).length

theorem gapCoverCount_cons (r : LogRecord) (ys : List LogRecord) (l : Nat) :
    gapCoverCount (r :: ys) l =
      (if gapCovers l r = true then 1 else 0) + gapCoverCount ys l := by
  simp only [gapCoverCount, List.filter_cons]
  by_cases h : gapCovers l r = true
  · rw [if_pos h, if_pos h]
    simp [Nat.add_comm]
  · rw [if_neg h, if_neg h]
    simp

theorem dataCount_cons (r : LogRecord) (ys : List LogRecord) (l : Nat) :
    dataCount (r :: ys) l =
      (if (r.record.isData && r.offset == l) = true then 1 else 0)
        + dataCount ys l := by
  simp only [dataCount, List.filter_cons]
  by_cases h : (r.record.isData && r.offset == l) = true
  · rw [if_pos h, if_pos h]
    simp [Nat.add_comm]
  · rw [if_neg h, if_neg h]
    simp

theorem run_read_stream_nil (u p : Nat) :
    run_read_stream u p [] = ([], p, decide (u ≤ p)) := by
  rw [run_read_stream]
  by_cases h : u ≤ p
  · rw [poll_next.eq_def, if_pos h]
    simp [h]
  · rw [poll_next.eq_def, if_neg h]
    simp [h]

theorem run_read_stream_cons_done (u p : Nat) (r : LogRecord)
    (rest : List LogRecord) (h : u ≤ p) :
    run_read_stream u p (r :: rest) = ([], p, true) := by
  rw [run_read_stream]
  rw [poll_next.eq_def, if_pos h]
  simp

theorem run_read_stream_cons_step (u p : Nat) (r : LogRecord)
    (rest : List LogRecord) (h : ¬ u ≤ p) :
    run_read_stream u p (r :: rest) =
      (r :: (run_read_stream u (calculate_read_pointer r) rest).1,
        (run_read_stream u (calculate_read_pointer r) rest).2.1,
        (run_read_stream u (calculate_read_pointer r) rest).2.2) := by
  rw [run_read_stream]
  rw [poll_next.eq_def, if_neg h]
  simp only
  rcases hrun : run_read_stream u (calculate_read_pointer r) rest with ⟨ys, fp, t⟩
  rfl

theorem run_read_stream_inv (u : Nat) (items : List LogRecord) :
    ∀ (p : Nat), LogletTrace p items →
    (∀ l, gapCoverCount (run_read_stream u p items).1 l
        + dataCount (run_read_stream u p items).1 l
      = if p < l ∧ l ≤ (run_read_stream u p items).2.1 then 1 else 0)
    ∧ (∀ r ∈ (run_read_stream u p items).1, p < r.offset ∧ r.offset ≤ u)
    ∧ p ≤ (run_read_stream u p items).2.1
    ∧ ((run_read_stream u p items).2.2 = true →
        u ≤ (run_read_stream u p items).2.1)
    ∧ List.Pairwise (fun r1 r2 => r1.offset < r2.offset)
        (run_read_stream u p items).1 := by
  induction items with
  | nil =>
    intro p _
    rw [run_read_stream_nil]
    simp only
    refine ⟨?_, by simp, le_refl _, fun h => of_decide_eq_true h,
      List.Pairwise.nil⟩
    intro l
    rw [if_neg (by omega)]
    simp [gapCoverCount, dataCount]
  | cons r rest ih =>
    intro p htr
    simp only [LogletTrace] at htr
    obtain ⟨hoff, hrec⟩ := htr
    by_cases hu : u ≤ p
    · rw [run_read_stream_cons_done _ _ _ _ hu]
      simp only
      refine ⟨?_, by simp, le_refl _, fun _ => hu, List.Pairwise.nil⟩
      intro l
      rw [if_neg (by omega)]
      simp [gapCoverCount, dataCount]
    · rw [run_read_stream_cons_step _ _ _ _ hu]
      simp only
      have hstep : LogletTrace (calculate_read_pointer r) rest
          ∧ p < calculate_read_pointer r
          ∧ ∀ l, ((if gapCovers l r = true then 1 else 0)
              + (if (r.record.isData && r.offset == l) = true then 1 else 0))
            = if p < l ∧ l ≤ calculate_read_pointer r then 1 else 0 := by
        rcases hr : r.record with u' | d | si
        · rw [hr] at hrec
          have hub : p + 1 ≤ u' := by
            have h := hrec.1
            omega
          refine ⟨by simp only [calculate_read_pointer, hr]; exact hrec.2,
            by simp only [calculate_read_pointer, hr]; omega, ?_⟩
          intro l
          simp only [calculate_read_pointer, hr, gapCovers, BRecord.isData,
            Bool.false_and, hoff, decide_eq_true_eq]
          by_cases hc : p + 1 ≤ l ∧ l ≤ u'
          · have hc1 : p < l ∧ l ≤ u' := by omega
            simp [hc, hc1]
          · have hc1 : ¬ (p < l ∧ l ≤ u') := by omega
            simp [hc, hc1]
        · rw [hr] at hrec
          refine ⟨by simp only [calculate_read_pointer, hr]; exact hrec,
            by simp only [calculate_read_pointer, hr]; omega, ?_⟩
          intro l
          simp only [calculate_read_pointer, hr, gapCovers, BRecord.isData,
            Bool.true_and, hoff, beq_iff_eq]
          by_cases hc : p + 1 = l
          · have hc1 : p < l ∧ l ≤ p + 1 := by omega
            simp [hc, hc1]
          · have hc1 : ¬ (p < l ∧ l ≤ p + 1) := by omega
            simp [hc, hc1]
        · rw [hr] at hrec
          exact (show False from hrec).elim
      obtain ⟨htrace', hpq, hhead⟩ := hstep
      obtain ⟨ihc, ihm, ihle, ihterm, ihpw⟩ :=
        ih (calculate_read_pointer r) htrace'
      refine ⟨?_, ?_, ?_, ?_, ?_⟩
      · intro l
        rw [gapCoverCount_cons, dataCount_cons]
        have hh := hhead l
        have hi := ihc l
        by_cases hc1 : p < l ∧ l ≤ calculate_read_pointer r
        · rw [if_pos hc1] at hh
          by_cases hc2 : calculate_read_pointer r < l
              ∧ l ≤ (run_read_stream u (calculate_read_pointer r) rest).2.1
          · rw [if_pos hc2] at hi
            by_cases hc3 : p < l
                ∧ l ≤ (run_read_stream u (calculate_read_pointer r) rest).2.1
            · rw [if_pos hc3]
              omega
            · rw [if_neg hc3]
              omega
          · rw [if_neg hc2] at hi
            by_cases hc3 : p < l
                ∧ l ≤ (run_read_stream u (calculate_read_pointer r) rest).2.1
            · rw [if_pos hc3]
              omega
            · rw [if_neg hc3]
              omega
        · rw [if_neg hc1] at hh
          by_cases hc2 : calculate_read_pointer r < l
              ∧ l ≤ (run_read_stream u (calculate_read_pointer r) rest).2.1
          · rw [if_pos hc2] at hi
            by_cases hc3 : p < l
                ∧ l ≤ (run_read_stream u (calculate_read_pointer r) rest).2.1
            · rw [if_pos hc3]
              omega
            · rw [if_neg hc3]
              omega
          · rw [if_neg hc2] at hi
            by_cases hc3 : p < l
                ∧ l ≤ (run_read_stream u (calculate_read_pointer r) rest).2.1
            · rw [if_pos hc3]
              omega
            · rw [if_neg hc3]
              omega
      · intro r' hr'
        rcases List.mem_cons.mp hr' with rfl | hr'
        · constructor
          · omega
          · omega
        · have := ihm r' hr'
          constructor
          · omega
          · exact this.2
      · omega
      · intro ht
        have := ihterm ht
        omega
      · rw [List.pairwise_cons]
        refine ⟨?_, ihpw⟩
        intro r' hr'
        have := ihm r' hr'
        omega

/-- C5: a `LogReadStream` over `after = a`, `until = u`, fed by a loglet
stream trace, yields records with strictly increasing LSNs, all in
`(a, u]`; and once the stream has terminated, every LSN of `(a, u]` not
carried by a yielded `Data` record is covered by exactly one yielded
`TrimGap` (the `Record` type of this layer has no `FilteredGap` variant,
so trim gaps are the only gap records a stream can yield). -/
theorem log_read_stream_yields (a u : Nat) (items : List LogRecord)
    (htrace : LogletTrace a items)
    (hterm : (run_read_stream u a items).2.2 = true) :
    List.Pairwise (fun r1 r2 => r1.offset < r2.offset)
      (run_read_stream u a items).1
    ∧ (∀ r ∈ (run_read_stream u a items).1, a < r.offset ∧ r.offset ≤ u)
    ∧ (∀ l, a < l → l ≤ u →
        dataCount (run_read_stream u a items).1 l = 0 →
        gapCoverCount (run_read_stream u a items).1 l = 1) := by
  obtain ⟨hcount, hmem, hple, ht, hpw⟩ := run_read_stream_inv u items a htrace
  refine ⟨hpw, hmem, ?_⟩
  intro l hal hlu hdc
  have hfp := ht hterm
  have hc := hcount l
  rw [hdc, if_pos (by omega : a < l ∧ l ≤ (run_read_stream u a items).2.1)]
    at hc
  omega

/-- C5 witness: from `after = 4`, `until = 7`, a data record at 5 followed
by a trim gap from 6 to 10 terminate the stream and tile `(4, 7]`. -/
theorem log_read_stream_yields_witness :
    List.Pairwise (fun r1 r2 => r1.offset < r2.offset)
      (run_read_stream 7 4 [⟨5, BRecord.data 50⟩, ⟨6, BRecord.trimGap 10⟩]).1
    ∧ (∀ r ∈ (run_read_stream 7 4
          [⟨5, BRecord.data 50⟩, ⟨6, BRecord.trimGap 10⟩]).1,
        4 < r.offset ∧ r.offset ≤ 7)
    ∧ (∀ l, 4 < l → l ≤ 7 →
        dataCount (run_read_stream 7 4
          [⟨5, BRecord.data 50⟩, ⟨6, BRecord.trimGap 10⟩]).1 l = 0 →
        gapCoverCount (run_read_stream 7 4
          [⟨5, BRecord.data 50⟩, ⟨6, BRecord.trimGap 10⟩]).1 l = 1) :=
  log_read_stream_yields 4 7 [⟨5, BRecord.data 50⟩, ⟨6, BRecord.trimGap 10⟩]
    (by simp [LogletTrace]) (by decide)

/-! ## Replicated loglet `find_tail` (spec-modelled) -/

/-- `TailState` of a loglet: `Open(next_offset)` or `Sealed(next_offset)`. -/
inductive TailState where
  | Open (offset : Nat)
  | Sealed (offset : Nat)
deriving DecidableEq, Repr

/-- One log server's reply to a tail query: its `local_tail` and whether it
is sealed. -/
structure NodeTailInfo where
  local_tail : Nat
  sealed : Bool
deriving DecidableEq, Repr

/-- Largest reported local tail (0 if no replies). -/
def maxLocalTail (rs : List NodeTailInfo) : Nat :=
  rs.foldl (fun acc r => max acc r.local_tail) 0

/-- Smallest reported local tail, seeded with the first reply. -/
def minLocalTail : List NodeTailInfo → Nat
  | [] => 0
  | r :: rest => rest.foldl (fun acc x => min acc x.local_tail) r.local_tail

/-- Modelled from the spec: `ReplicatedLoglet::find_tail`
(replicated_loglet/loglet.rs:143-150) leaves the remote-quorum tail search
unimplemented (`todo!`); the spec specifies it as: query a read quorum of
log servers; if any reply reports sealed, the tail is `Sealed(max of the
local tails)`; otherwise it is `Open(min of the local tails)` — on
disagreement about the sealed state, sealed wins. `none` models the absence
of a quorum. -/
def find_tail_from_quorum : List NodeTailInfo → Option TailState
  | [] => none
  | r :: rest =>
    if (r :: rest).any (·.sealed) then
      some (.Sealed (maxLocalTail (r :: rest)))
    else
      some (.Open (minLocalTail (r :: rest)))

theorem foldl_max_ge (rs : List NodeTailInfo) (a : Nat) :
    a ≤ rs.foldl (fun acc r => max acc r.local_tail) a
    ∧ ∀ r ∈ rs, r.local_tail ≤ rs.foldl (fun acc r => max acc r.local_tail) a := by
  induction rs generalizing a with
  | nil => simp
  | cons x rest ih =>
    refine ⟨?_, ?_⟩
    · simp only [List.foldl_cons]
      exact le_trans (le_max_left a x.local_tail) (ih (max a x.local_tail)).1
    · intro r hr
      rcases List.mem_cons.mp hr with rfl | hr
      · simp only [List.foldl_cons]
        exact le_trans (le_max_right a r.local_tail) (ih (max a r.local_tail)).1
      · simp only [List.foldl_cons]
        exact (ih (max a x.local_tail)).2 r hr

theorem foldl_max_mem (rs : List NodeTailInfo) (a : Nat) :
    rs.foldl (fun acc r => max acc r.local_tail) a = a
    ∨ ∃ r ∈ rs, rs.foldl (fun acc r => max acc r.local_tail) a = r.local_tail := by
  induction rs generalizing a with
  | nil => simp
  | cons x rest ih =>
    simp only [List.foldl_cons]
    rcases ih (max a x.local_tail) with h | ⟨r, hr, h⟩
    · rcases max_choice a x.local_tail with hm | hm
      · rw [hm] at h ⊢
        exact Or.inl h
      · rw [hm] at h ⊢
        exact Or.inr ⟨x, List.mem_cons_self _ _, h⟩
    · exact Or.inr ⟨r, List.mem_cons_of_mem _ hr, h⟩

theorem foldl_min_le (rs : List NodeTailInfo) (a : Nat) :
    rs.foldl (fun acc r => min acc r.local_tail) a ≤ a
    ∧ ∀ r ∈ rs, rs.foldl (fun acc r => min acc r.local_tail) a ≤ r.local_tail := by
  induction rs generalizing a with
  | nil => simp
  | cons x rest ih =>
    refine ⟨?_, ?_⟩
    · simp only [List.foldl_cons]
      exact le_trans (ih (min a x.local_tail)).1 (min_le_left a x.local_tail)
    · intro r hr
      rcases List.mem_cons.mp hr with rfl | hr
      · simp only [List.foldl_cons]
        exact le_trans (ih (min a r.local_tail)).1 (min_le_right a r.local_tail)
      · simp only [List.foldl_cons]
        exact (ih (min a x.local_tail)).2 r hr

theorem foldl_min_mem (rs : List NodeTailInfo) (a : Nat) :
    rs.foldl (fun acc r => min acc r.local_tail) a = a
    ∨ ∃ r ∈ rs, rs.foldl (fun acc r => min acc r.local_tail) a = r.local_tail := by
  induction rs generalizing a with
  | nil => simp
  | cons x rest ih =>
    simp only [List.foldl_cons]
    rcases ih (min a x.local_tail) with h | ⟨r, hr, h⟩
    · rcases min_choice a x.local_tail with hm | hm
      · rw [hm] at h ⊢
        exact Or.inl h
      · rw [hm] at h ⊢
        exact Or.inr ⟨x, List.mem_cons_self _ _, h⟩
    · exact Or.inr ⟨r, List.mem_cons_of_mem _ hr, h⟩

/-- C7: with a non-empty set of quorum replies, if any reply reports
sealed, `find_tail` returns `Sealed(t)` where `t` is the largest reported
local tail (and is one of them); if no reply reports sealed it returns
`Open(t)` with `t` the smallest reported local tail (and one of them).
Sealed wins whenever the replies disagree. -/
theorem find_tail_from_quorum_spec (rs : List NodeTailInfo) (hne : rs ≠ []) :
    ((∃ r ∈ rs, r.sealed = true) →
      ∃ t, find_tail_from_quorum rs = some (.Sealed t)
        ∧ (∀ r ∈ rs, r.local_tail ≤ t)
        ∧ ∃ r ∈ rs, t = r.local_tail)
    ∧ ((∀ r ∈ rs, r.sealed = false) →
      ∃ t, find_tail_from_quorum rs = some (.Open t)
        ∧ (∀ r ∈ rs, t ≤ r.local_tail)
        ∧ ∃ r ∈ rs, t = r.local_tail) := by
  cases rs with
  | nil => exact absurd rfl hne
  | cons x rest =>
    constructor
    · intro hsealed
      have hany : (x :: rest).any (·.sealed) = true := by
        rw [List.any_eq_true]
        obtain ⟨r, hr, hs⟩ := hsealed
        exact ⟨r, hr, hs⟩
      refine ⟨maxLocalTail (x :: rest), ?_, ?_, ?_⟩
      · rw [find_tail_from_quorum, if_pos hany]
      · intro r hr
        exact (foldl_max_ge (x :: rest) 0).2 r hr
      · rcases foldl_max_mem (x :: rest) 0 with h | ⟨r, hr, h⟩
        · refine ⟨x, List.mem_cons_self _ _, ?_⟩
          have hx := (foldl_max_ge (x :: rest) 0).2 x (List.mem_cons_self _ _)
          simp only [maxLocalTail, h] at hx ⊢
          omega
        · exact ⟨r, hr, h⟩
    · intro hopen
      have hany : (x :: rest).any (·.sealed) = false := by
        rw [List.any_eq_false]
        intro r hr
        simp [hopen r hr]
      refine ⟨minLocalTail (x :: rest), ?_, ?_, ?_⟩
      · rw [find_tail_from_quorum, hany]
        rfl
      · intro r hr
        rcases List.mem_cons.mp hr with rfl | hr
        · exact (foldl_min_le rest r.local_tail).1
        · exact (foldl_min_le rest x.local_tail).2 r hr
      · rcases foldl_min_mem rest x.local_tail with h | ⟨r, hr, h⟩
        · exact ⟨x, List.mem_cons_self _ _, h⟩
        · exact ⟨r, List.mem_cons_of_mem _ hr, h⟩

/-- C7 witness: replies `{(100, false), (102, true), (101, false)}` — a
sealed reply wins and the tail is the maximum 102; all-open replies
`{(100, false), (102, false)}` give `Open(100)`. -/
theorem find_tail_from_quorum_spec_witness :
    (∃ t, find_tail_from_quorum
        [⟨100, false⟩, ⟨102, true⟩, ⟨101, false⟩] = some (.Sealed t)
      ∧ (∀ r ∈ ([⟨100, false⟩, ⟨102, true⟩, ⟨101, false⟩] :
            List NodeTailInfo), r.local_tail ≤ t)
      ∧ ∃ r ∈ ([⟨100, false⟩, ⟨102, true⟩, ⟨101, false⟩] :
            List NodeTailInfo), t = r.local_tail)
    ∧ ∃ t, find_tail_from_quorum
        [⟨100, false⟩, ⟨102, false⟩] = some (.Open t)
      ∧ (∀ r ∈ ([⟨100, false⟩, ⟨102, false⟩] : List NodeTailInfo),
          t ≤ r.local_tail)
      ∧ ∃ r ∈ ([⟨100, false⟩, ⟨102, false⟩] : List NodeTailInfo),
          t = r.local_tail :=
  ⟨(find_tail_from_quorum_spec [⟨100, false⟩, ⟨102, true⟩, ⟨101, false⟩]
      (by decide)).1 ⟨⟨102, true⟩, by decide, rfl⟩,
    (find_tail_from_quorum_spec [⟨100, false⟩, ⟨102, false⟩]
      (by decide)).2 (by decide)⟩

end Restate
